import Mathlib

/-!
# Verification of the concurrent pipeline patterns in go-study

This development shallowly embeds the concurrency examples of
`05-advanced/02-concurrency/channels.go` and
`05-advanced/02-concurrency/goroutines.go`:

* the Go channel send/receive semantics that `sender`/`receiver` rely on;
* the deterministic round-robin dispatcher `fanOut`;
* the pipeline stages `generateNumbers`, `square`, `filter`;
* the order-insensitive parallel sum of `parallelComputingExample`;
* the worker loop of `worker` (no panic recovery in the source);
* a small-step machine for `fanIn` (per-input forwarders, a WaitGroup of
  done flags, a closer goroutine) run over arbitrary schedules;
* a small-step machine for `workerPoolExample` (producer, shared task
  channel, W workers, a closer goroutine) run over arbitrary schedules;
* a single-producer single-consumer queue machine for the FIFO property of
  `basicChannelExample`.

Nondeterministic scheduling is modelled by quantifying over an explicit
schedule (a list of atomic actions); safety properties are proved for all
schedules, and liveness is established by exhibiting an explicit schedule.
-/

/-! ## Generic list helper lemmas (getD / set) -/

theorem getD_of_len_le {α : Type} (l : List α) (k : Nat) (d : α)
    (h : l.length ≤ k) : l.getD k d = d := by
  induction l generalizing k with
  | nil => simp [List.getD]
  | cons a tl ih =>
    cases k with
    | zero => simp at h
    | succ k => simpa [List.getD] using ih k (by simpa using h)

theorem getD_set_self {α : Type} (l : List α) (k : Nat) (v d : α)
    (h : k < l.length) : (l.set k v).getD k d = v := by
  induction l generalizing k with
  | nil => simp at h
  | cons a tl ih =>
    cases k with
    | zero => simp [List.getD]
    | succ k => simpa [List.getD] using ih k (by simpa using h)

theorem getD_set_ne {α : Type} (l : List α) (j k : Nat) (v d : α)
    (h : j ≠ k) : (l.set j v).getD k d = l.getD k d := by
  induction l generalizing j k with
  | nil => simp
  | cons a tl ih =>
    cases j with
    | zero =>
      cases k with
      | zero => exact absurd rfl h
      | succ k => simp [List.getD]
    | succ j =>
      cases k with
      | zero => simp [List.getD]
      | succ k => simpa [List.getD] using ih j k (fun hj => h (by simp [hj]))

theorem set_getD_eq_self {α : Type} (l : List α) (k : Nat) (v d : α)
    (h : l.getD k d = v) (hk : k < l.length) : l.set k v = l := by
  induction l generalizing k with
  | nil => simp at hk
  | cons a tl ih =>
    cases k with
    | zero => simp_all [List.getD]
    | succ k =>
      have := ih k (by simpa [List.getD] using h) (by simpa using hk)
      simp [this]

/-! ## Go channel semantics (C6, C7)

The examples communicate only through Go channels.  A channel is a bounded
FIFO buffer with a closed flag.  `chanSend` models one send attempt as used
by `sender` (channels.go:97): the Go runtime panics on send to a closed
channel — modelled as the distinguished `closedError` outcome (the spec's
`ClosedQueueError`) — blocks when the buffer is full, and otherwise appends
to the buffer.  `chanRecv` models one receive attempt as used by `receiver`
(channels.go:107): it takes the oldest buffered value when one exists
(whether or not the channel is closed), reports closed-and-drained with
`ok = false`, and otherwise blocks. -/

structure Queue (α : Type) where
  buf : List α
  cap : Nat
  closed : Bool
deriving DecidableEq

inductive SendOutcome (α : Type) where
  | sent (q : Queue α)
  | blocked
  | closedError
deriving DecidableEq

inductive RecvOutcome (α : Type) where
  | got (v : α) (q : Queue α)
  | closedEmpty
  | blocked
deriving DecidableEq

def chanSend {α : Type} (q : Queue α) (v : α) : SendOutcome α :=
  if q.closed then SendOutcome.closedError
  else if q.buf.length < q.cap then
    SendOutcome.sent { q with buf := q.buf ++ [v] }
  else SendOutcome.blocked

def chanRecv {α : Type} (q : Queue α) : RecvOutcome α :=
  match q.buf with
  | v :: rest => RecvOutcome.got v { q with buf := rest }
  | [] => if q.closed then RecvOutcome.closedEmpty else RecvOutcome.blocked

/-- C6: for every queue and value, a send on a closed queue yields the
`closedError` outcome (the Go panic, the spec's ClosedQueueError) — in
particular it is never reported as a successful send, so the failure is
surfaced to the producer and the value is never silently dropped — and a
send on a full but open queue blocks rather than failing or dropping. -/
theorem enqueue_closed_fails_full_blocks {α : Type} (q : Queue α) (v : α) :
    (q.closed = true → chanSend q v = SendOutcome.closedError) ∧
    (q.closed = false → q.cap ≤ q.buf.length → chanSend q v = SendOutcome.blocked) ∧
    (∀ q2, chanSend q v = SendOutcome.sent q2 → q.closed = false ∧ q.buf.length < q.cap) := by
  refine ⟨fun hc => by simp [chanSend, hc], fun hc hf => ?_, fun q2 hs => ?_⟩
  · simp [chanSend, hc, Nat.not_lt.mpr hf]
  · by_cases hc : q.closed <;> by_cases hl : q.buf.length < q.cap <;>
      simp_all [chanSend]

theorem enqueue_closed_fails_full_blocks_witness :
    (chanSend (Queue.mk [1] 3 true) (2 : Nat) = SendOutcome.closedError) ∧
    (chanSend (Queue.mk [1, 2] 2 false) (3 : Nat) = SendOutcome.blocked) := by
  have h1 := enqueue_closed_fails_full_blocks (Queue.mk [1] 3 true) (2 : Nat)
  have h2 := enqueue_closed_fails_full_blocks (Queue.mk [1, 2] 2 false) (3 : Nat)
  exact ⟨h1.1 (by decide), h2.2.1 (by decide) (by decide)⟩

/-- C7: a dequeue yields the oldest value with `ok = true` whenever the
buffer is nonempty — in particular values enqueued before close remain
drainable after close — and the closed-and-drained outcome (`ok = false`)
occurs exactly when the queue is closed and its buffer is empty. -/
theorem dequeue_drains_then_reports_closed {α : Type} (q : Queue α) :
    (∀ v rest, q.buf = v :: rest →
      chanRecv q = RecvOutcome.got v { q with buf := rest }) ∧
    (chanRecv q = RecvOutcome.closedEmpty ↔ (q.closed = true ∧ q.buf = [])) := by
  refine ⟨fun v rest hb => by simp [chanRecv, hb], ?_⟩
  cases hb : q.buf with
  | nil =>
    by_cases hc : q.closed <;> simp_all [chanRecv]
  | cons v rest => simp [chanRecv, hb]

theorem dequeue_drains_then_reports_closed_witness :
    (chanRecv (Queue.mk [7, 8] 2 true) =
      RecvOutcome.got 7 (Queue.mk [8] 2 true)) ∧
    (chanRecv (Queue.mk ([] : List Nat) 2 true) = RecvOutcome.closedEmpty) := by
  have h1 := dequeue_drains_then_reports_closed (Queue.mk [7, 8] 2 true)
  have h2 := dequeue_drains_then_reports_closed (Queue.mk ([] : List Nat) 2 true)
  exact ⟨h1.1 7 [8] rfl, h2.2.mpr ⟨rfl, rfl⟩⟩

/-! ## Pipeline stages (C4)

`pipelineExample` (channels.go:315) chains three stages, each a single
goroutine forwarding over an unbuffered channel, so the whole chain is the
composition of the per-stage list transformations: `generateNumbers`
(channels.go:333) emits `start..end` in order, `square` (channels.go:346)
maps `n * n` preserving order, and `filter` (channels.go:360) keeps exactly
the values satisfying the predicate, preserving order. -/

def generateNumbers (start stop : Nat) : List Int :=
  (List.range' start (stop + 1 - start)).map Int.ofNat

def square (input : List Int) : List Int :=
  input.map (fun n => n * n)

def filterStage (input : List Int) (predicate : Int → Bool) : List Int :=
  input.filter predicate

def pipelineResult : List Int :=
  filterStage (square (generateNumbers 1 10)) (fun n => 20 < n)

/-- C4: the map stage squaring each of 1..10 followed by the filter stage
keeping values greater than 20 yields exactly 25, 36, 49, 64, 81, 100 in
the order the map stage emitted them. -/
theorem pipeline_squares_then_filters :
    pipelineResult = [25, 36, 49, 64, 81, 100] := by decide

/-! ## Parallel computation (C10)

`cpuIntensiveTask` (goroutines.go:175) sums `i * i` for `i = 0 .. n-1`;
its `id` argument is only printed, never used in the computation.
`parallelComputingExample` (goroutines.go:185) computes the serial sum of
`cpuIntensiveTask i workSize` for `i = 0 .. numTasks-1`, then launches one
goroutine per task and sums the `numTasks` values received from the results
channel; the receive order is an arbitrary permutation of the task ids,
modelled by the `order` argument of `parallelCompute`. -/

def cpuIntensiveTask (id n : Nat) : Int :=
  (List.range n).foldl (fun acc i => acc + (i : Int) * (i : Int)) 0

def numTasks : Nat := 8

def workSize : Nat := 1000000

def serialCompute : Int :=
  (List.range numTasks).foldl (fun acc i => acc + cpuIntensiveTask i workSize) 0

def parallelCompute (order : List Nat) : Int :=
  order.foldl (fun acc k => acc + cpuIntensiveTask k workSize) 0

theorem foldl_add_eq_sum (f : Nat → Int) (l : List Nat) (acc : Int) :
    l.foldl (fun a k => a + f k) acc = acc + (l.map f).sum := by
  induction l generalizing acc with
  | nil => simp
  | cons x tl ih => simp [ih, add_assoc]

/-- C10: summing the per-task results in any arrival order (any permutation
of the task ids) gives the same total as the serial loop, and
`cpuIntensiveTask` does not depend on its id argument. -/
theorem parallel_sum_eq_serial_sum (order : List Nat)
    (h : order.Perm (List.range numTasks)) :
    parallelCompute order = serialCompute ∧
    (∀ id n, cpuIntensiveTask id n = cpuIntensiveTask 0 n) := by
  refine ⟨?_, fun id n => rfl⟩
  have hm : (order.map (fun k => cpuIntensiveTask k workSize)).Perm
      ((List.range numTasks).map (fun k => cpuIntensiveTask k workSize)) :=
    h.map _
  calc parallelCompute order
      = 0 + (order.map (fun k => cpuIntensiveTask k workSize)).sum :=
        foldl_add_eq_sum _ order 0
    _ = 0 + ((List.range numTasks).map (fun k => cpuIntensiveTask k workSize)).sum := by
        rw [hm.sum_eq]
    _ = serialCompute := (foldl_add_eq_sum _ (List.range numTasks) 0).symm

theorem parallel_sum_eq_serial_sum_witness :
    parallelCompute ((List.range numTasks).reverse) = serialCompute :=
  (parallel_sum_eq_serial_sum ((List.range numTasks).reverse)
    ((List.range numTasks).reverse_perm)).1

/-! ## Timeout gate (C8) -/

inductive TimeoutOutcome where
  | completed
  | timedOut
deriving DecidableEq

/-- Modelled from the spec: the engine operation `ReceiveWithTimeout(q, d)`
(spec section 6) is not itself in the source; the source only demonstrates
its mechanism, a select racing a receive against a deadline timer
(`timeoutExample`, goroutines.go:232, and `selectExample`, channels.go:70).
Following the spec's words, the dequeue is raced against a deadline timer
and whichever resolves first determines the outcome.  Time is discrete:
`arrival` is the instant the value becomes available on the queue and `d`
the deadline; at an exact tie, which the spec leaves to the race, the model
lets the timer win. -/
def receiveWithTimeout {α : Type} (arrival d : Nat) (v : α) :
    Option α × TimeoutOutcome :=
  if arrival < d then (some v, TimeoutOutcome.completed)
  else (none, TimeoutOutcome.timedOut)

/-- C8: when the value arrives strictly before the deadline the gate
returns it with the Completed outcome; when the deadline elapses first the
gate returns no value with the TimedOut outcome. -/
theorem receive_with_timeout_boundary {α : Type} (arrival d : Nat) (v : α) :
    (arrival < d →
      receiveWithTimeout arrival d v = (some v, TimeoutOutcome.completed)) ∧
    (d < arrival →
      receiveWithTimeout arrival d v = (none, TimeoutOutcome.timedOut)) := by
  constructor
  · intro h; simp [receiveWithTimeout, h]
  · intro h; simp [receiveWithTimeout, Nat.not_lt.mpr (Nat.le_of_lt h)]

theorem receive_with_timeout_boundary_witness :
    (receiveWithTimeout 50 100 (7 : Nat) = (some 7, TimeoutOutcome.completed)) ∧
    (receiveWithTimeout 150 100 (7 : Nat) = (none, TimeoutOutcome.timedOut)) :=
  ⟨(receive_with_timeout_boundary 50 100 7).1 (by decide),
   (receive_with_timeout_boundary 150 100 7).2 (by decide)⟩

/-! ## The worker loop and panics (C5)

`worker` (goroutines.go:68) ranges over the task channel, computes one
result per task and forwards it to the results channel.  The source
installs no `recover`: a panic raised while processing a task unwinds the
worker goroutine — no result is produced for that task, no later task is
processed, and the unrecovered panic terminates the program.  The
processing step is a parameter here so that a panicking step is
expressible; the step actually used by the source (a `fmt.Sprintf` of the
worker id and the task) never fails and is `sourceStep`. -/

structure GoTask where
  id : Nat
  name : String
  data : String
deriving DecidableEq

def sourceStep (workerId : Nat) (t : GoTask) : Except String (Nat × GoTask) :=
  Except.ok (workerId, t)

def workerLoop {ρ : Type} (step : GoTask → Except String ρ) :
    List GoTask → List ρ × Option String
  | [] => ([], none)
  | t :: rest =>
    match step t with
    | Except.ok r =>
      let p := workerLoop step rest
      (r :: p.1, p.2)
    | Except.error e => ([], some e)

def okValue {ρ : Type} : Except String ρ → Option ρ
  | Except.ok r => some r
  | Except.error _ => none

def boomStep : GoTask → Except String (Nat × GoTask) := fun t =>
  if t.id = 1 then Except.error "boom" else Except.ok (1, t)

def demoTasks : List GoTask := [GoTask.mk 1 "t1" "d1", GoTask.mk 2 "t2" "d2"]

/-- C5 counterexample: with a processing step that panics on the first of
two tasks, the source worker emits no result at all — the failing task is
not reported as an error-carrying result, and the worker does not continue
to the second task: the panic aborts the loop. -/
theorem worker_panic_unreported_counterexample :
    workerLoop boomStep demoTasks = ([], some "boom") ∧
    (workerLoop boomStep demoTasks).1.length ≠ demoTasks.length := by
  constructor
  · rfl
  · intro h
    simp [workerLoop, boomStep, demoTasks] at h

/-- C5 amended: the source worker has no panic recovery.  If the
processing step succeeds on every task before `t` and panics on `t`, the
worker forwards exactly the results of the earlier tasks, emits no result
for `t`, processes none of the later tasks, and the panic propagates. -/
theorem worker_no_recover_stops_at_panic {ρ : Type}
    (step : GoTask → Except String ρ) (pre post : List GoTask) (t : GoTask)
    (e : String) (hok : ∀ u ∈ pre, ∃ r, step u = Except.ok r)
    (ht : step t = Except.error e) :
    workerLoop step (pre ++ t :: post) =
      (pre.filterMap (fun u => okValue (step u)), some e) := by
  induction pre with
  | nil => simp [workerLoop, ht]
  | cons u pre ih =>
    obtain ⟨r, hr⟩ := hok u (List.mem_cons_self u pre)
    have hrest : ∀ u2 ∈ pre, ∃ r2, step u2 = Except.ok r2 :=
      fun u2 hu2 => hok u2 (List.mem_cons_of_mem u hu2)
    simp [workerLoop, hr, ih hrest, okValue]

theorem worker_no_recover_stops_at_panic_witness :
    workerLoop boomStep [GoTask.mk 2 "t2" "d2", GoTask.mk 1 "t1" "d1"] =
      ([(1, GoTask.mk 2 "t2" "d2")], some "boom") := by
  have h := worker_no_recover_stops_at_panic boomStep
    [GoTask.mk 2 "t2" "d2"] [] (GoTask.mk 1 "t1" "d1") "boom"
    (by
      intro u hu
      simp at hu
      subst hu
      exact ⟨(1, GoTask.mk 2 "t2" "d2"), rfl⟩)
    rfl
  simpa [boomStep, okValue] using h

/-! ## Fan-out dispatcher (C3)

`fanOut` (channels.go:285) is a single dispatcher goroutine: it keeps a
counter `i`, forwards each consumed value to output `i % numWorkers`,
increments `i`, and — via the deferred block — closes every output channel
once the input is closed and drained.  Being one sequential goroutine, its
behaviour is a deterministic event trace: `DispatchEv.put k v` records the
completed send of `v` to output `k`, `DispatchEv.closeOut k` the close of
output `k`. -/

inductive DispatchEv where
  | put (k : Nat) (v : Int)
  | closeOut (k : Nat)
deriving DecidableEq

def fanOutLoop (numWorkers : Nat) : List Int → Nat → List DispatchEv
  | [], _ => (List.range numWorkers).map DispatchEv.closeOut
  | v :: rest, i => DispatchEv.put (i % numWorkers) v :: fanOutLoop numWorkers rest (i + 1)

def fanOut (input : List Int) (numWorkers : Nat) : List DispatchEv :=
  fanOutLoop numWorkers input 0

def sentTo (k : Nat) : List DispatchEv → List Int
  | [] => []
  | DispatchEv.put j v :: tr => if j = k then v :: sentTo k tr else sentTo k tr
  | DispatchEv.closeOut _ :: tr => sentTo k tr

def closesTo (k : Nat) : List DispatchEv → Nat
  | [] => 0
  | DispatchEv.put _ _ :: tr => closesTo k tr
  | DispatchEv.closeOut j :: tr => (if j = k then 1 else 0) + closesTo k tr

def isPut : DispatchEv → Bool
  | DispatchEv.put _ _ => true
  | DispatchEv.closeOut _ => false

/-- Close-after-flush: once any close appears in the trace, no put follows. -/
def closeAfterFlush : List DispatchEv → Bool
  | [] => true
  | DispatchEv.put _ _ :: tr => closeAfterFlush tr
  | DispatchEv.closeOut _ :: tr => tr.all (fun e => !(isPut e))

theorem sentTo_map_closeOut (k : Nat) (l : List Nat) :
    sentTo k (l.map DispatchEv.closeOut) = [] := by
  induction l with
  | nil => rfl
  | cons j js ih => simpa [sentTo] using ih

theorem closesTo_append (k : Nat) (tr1 tr2 : List DispatchEv) :
    closesTo k (tr1 ++ tr2) = closesTo k tr1 + closesTo k tr2 := by
  induction tr1 with
  | nil => simp [closesTo]
  | cons e tr ih => cases e <;> simp [closesTo, ih] <;> omega

theorem closesTo_range_of_le (k K : Nat) (h : K ≤ k) :
    closesTo k ((List.range K).map DispatchEv.closeOut) = 0 := by
  induction K with
  | zero => rfl
  | succ K ih =>
    rw [List.range_succ, List.map_append, closesTo_append]
    have hne : K ≠ k := Nat.ne_of_lt (Nat.lt_of_lt_of_le (Nat.lt_succ_self K) h)
    simp [closesTo, hne, ih (Nat.le_of_succ_le h)]

theorem closesTo_range_of_lt (k K : Nat) (h : k < K) :
    closesTo k ((List.range K).map DispatchEv.closeOut) = 1 := by
  induction K with
  | zero => exact absurd h (Nat.not_lt_zero k)
  | succ K ih =>
    rw [List.range_succ, List.map_append, closesTo_append]
    rcases Nat.lt_succ_iff_lt_or_eq.mp h with hk | hk
    · have hne : K ≠ k := Nat.ne_of_gt hk
      simp [closesTo, hne, ih hk]
    · subst hk
      simp [closesTo, closesTo_range_of_le k k (Nat.le_refl k)]

theorem sentTo_fanOutLoop (K k : Nat) (l : List Int) (i : Nat) :
    sentTo k (fanOutLoop K l i) =
      (List.enumFrom i l).filterMap
        (fun p => if p.1 % K = k then some p.2 else none) := by
  induction l generalizing i with
  | nil => simp [fanOutLoop, sentTo_map_closeOut]
  | cons v rest ih =>
    by_cases h : i % K = k <;>
      simp [fanOutLoop, sentTo, List.enumFrom, h, ih (i + 1)]

theorem sum_sentTo_fanOutLoop (K : Nat) (hK : 0 < K) (l : List Int) (i : Nat) :
    (∑ k ∈ Finset.range K, (sentTo k (fanOutLoop K l i)).length) = l.length := by
  induction l generalizing i with
  | nil => simp [fanOutLoop, sentTo_map_closeOut]
  | cons v rest ih =>
    have hlen : ∀ k, (sentTo k (fanOutLoop K (v :: rest) i)).length =
        (if i % K = k then 1 else 0) +
          (sentTo k (fanOutLoop K rest (i + 1))).length := by
      intro k
      by_cases h : i % K = k <;> simp [fanOutLoop, sentTo, h] <;> omega
    rw [Finset.sum_congr rfl (fun k _ => hlen k), Finset.sum_add_distrib]
    have hmem : i % K ∈ Finset.range K := Finset.mem_range.mpr (Nat.mod_lt i hK)
    rw [Finset.sum_ite_eq (Finset.range K) (i % K) (fun _ => 1)]
    simp [hmem, ih (i + 1)]
    omega

theorem closeAfterFlush_map_closeOut (l : List Nat) :
    closeAfterFlush (l.map DispatchEv.closeOut) = true := by
  cases l with
  | nil => rfl
  | cons j js =>
    simp only [List.map_cons, closeAfterFlush]
    induction js with
    | nil => rfl
    | cons j2 js2 ih => simpa [isPut] using ih

theorem closeAfterFlush_fanOutLoop (K : Nat) (l : List Int) (i : Nat) :
    closeAfterFlush (fanOutLoop K l i) = true := by
  induction l generalizing i with
  | nil => simpa [fanOutLoop] using closeAfterFlush_map_closeOut (List.range K)
  | cons v rest ih => simpa [fanOutLoop, closeAfterFlush] using ih (i + 1)

/-- C3: for every input and K > 0 outputs, the round-robin dispatcher
delivers to output k exactly the input values whose 0-based index is
congruent to k modulo K, in their original relative order; the lengths of
the K outputs sum to the input length; every output is closed exactly
once; and every close happens only after the last value has been placed
(no put follows any close in the trace). -/
theorem fanout_round_robin_conserves_and_closes (input : List Int) (K : Nat)
    (hK : 0 < K) :
    (∀ k, sentTo k (fanOut input K) =
      (List.enumFrom 0 input).filterMap
        (fun p => if p.1 % K = k then some p.2 else none)) ∧
    (∑ k ∈ Finset.range K, (sentTo k (fanOut input K)).length) = input.length ∧
    (∀ k, k < K → closesTo k (fanOut input K) = 1) ∧
    closeAfterFlush (fanOut input K) = true := by
  refine ⟨fun k => sentTo_fanOutLoop K k input 0,
    sum_sentTo_fanOutLoop K hK input 0, fun k hk => ?_,
    closeAfterFlush_fanOutLoop K input 0⟩
  have hgen : ∀ (l : List Int) (i : Nat),
      closesTo k (fanOutLoop K l i) = 1 := by
    intro l
    induction l with
    | nil => intro i; simpa [fanOutLoop] using closesTo_range_of_lt k K hk
    | cons v rest ih =>
      intro i
      by_cases h : i % K = k <;> simp [fanOutLoop, closesTo, h, ih (i + 1)]
  exact hgen input 0

theorem fanout_round_robin_witness :
    (sentTo 1 (fanOut [5, 6, 7] 2) =
      (List.enumFrom 0 [5, 6, 7]).filterMap
        (fun p => if p.1 % 2 = 1 then some p.2 else none)) ∧
    (∑ k ∈ Finset.range 2, (sentTo k (fanOut [5, 6, 7] 2)).length) = 3 ∧
    closesTo 0 (fanOut [5, 6, 7] 2) = 1 ∧
    closeAfterFlush (fanOut [5, 6, 7] 2) = true := by
  have h := fanout_round_robin_conserves_and_closes [5, 6, 7] 2 (by decide)
  exact ⟨h.1 1, h.2.1, h.2.2.1 0 (by decide), h.2.2.2⟩

/-! ## Single-producer single-consumer FIFO (C9)

`basicChannelExample` (channels.go:11) has one producer goroutine sending
a fixed sequence over an unbuffered channel and then closing it, and one
consumer ranging over the channel.  The machine below models the general
single-producer single-consumer queue: `pending` is what the producer has
yet to send, `buf` the channel buffer (Go hands an unbuffered channel's
value through a rendezvous, modelled as a one-slot buffer, hence
`max cap 1` slots), `received` what the consumer has taken so far.  A
schedule entry `true` gives the producer a step (send the next value, or
close once done), `false` gives the consumer a step (take the oldest
buffered value); a blocked party's step is a no-op. -/

structure SPSCState (α : Type) where
  pending : List α
  buf : List α
  closed : Bool
  received : List α
deriving DecidableEq

def spscStep {α : Type} (cap : Nat) (s : SPSCState α) (producerTurn : Bool) :
    SPSCState α :=
  if producerTurn then
    match s.pending with
    | v :: rest =>
      if s.buf.length < max cap 1 then
        { s with pending := rest, buf := s.buf ++ [v] }
      else s
    | [] => if s.closed then s else { s with closed := true }
  else
    match s.buf with
    | v :: rest => { s with buf := rest, received := s.received ++ [v] }
    | [] => s

def spscInit {α : Type} (vs : List α) : SPSCState α :=
  SPSCState.mk vs [] false []

def spscRun {α : Type} (cap : Nat) (vs : List α) (sched : List Bool) :
    SPSCState α :=
  sched.foldl (spscStep cap) (spscInit vs)

/-- A schedule that alternates one producer step and one consumer step per
value: enough steps for full delivery. -/
def spscFairSched {α : Type} : List α → List Bool
  | [] => []
  | _ :: rest => true :: false :: spscFairSched rest

theorem spscStep_conserves {α : Type} (cap : Nat) (s : SPSCState α)
    (b : Bool) :
    (spscStep cap s b).received ++ (spscStep cap s b).buf ++
      (spscStep cap s b).pending = s.received ++ s.buf ++ s.pending := by
  cases b with
  | true =>
    cases hp : s.pending with
    | nil => by_cases hc : s.closed <;> simp [spscStep, hp, hc]
    | cons v rest =>
      by_cases hb : s.buf.length < max cap 1 <;> simp [spscStep, hp, hb]
  | false =>
    cases hb : s.buf with
    | nil => simp [spscStep, hb]
    | cons v rest => simp [spscStep, hb]

theorem spscRun_conserves_aux {α : Type} (cap : Nat) (sched : List Bool)
    (s : SPSCState α) :
    (sched.foldl (spscStep cap) s).received ++
      (sched.foldl (spscStep cap) s).buf ++
      (sched.foldl (spscStep cap) s).pending =
      s.received ++ s.buf ++ s.pending := by
  induction sched generalizing s with
  | nil => rfl
  | cons b rest ih => rw [List.foldl_cons, ih, spscStep_conserves]

theorem spscFair_delivers_aux {α : Type} (cap : Nat) (vs acc : List α) :
    (spscFairSched vs).foldl (spscStep cap) (SPSCState.mk vs [] false acc) =
      SPSCState.mk [] [] false (acc ++ vs) := by
  induction vs generalizing acc with
  | nil => simp [spscFairSched]
  | cons v rest ih =>
    have h1 : spscStep cap (SPSCState.mk (v :: rest) [] false acc) true =
        SPSCState.mk rest [v] false acc := by
      simp [spscStep, Nat.lt_of_lt_of_le Nat.zero_lt_one (Nat.le_max_right cap 1)]
    have h2 : spscStep cap (SPSCState.mk rest [v] false acc) false =
        SPSCState.mk rest [] false (acc ++ [v]) := by
      simp [spscStep]
    simp [spscFairSched, h1, h2, ih (acc ++ [v])]

/-- C9: for a single-producer single-consumer queue, at every point of
every schedule the consumed sequence followed by the buffered and the
unsent values is exactly the produced sequence — so the consumer dequeues
values precisely in enqueue order — and the alternating schedule delivers
the whole sequence. -/
theorem spsc_fifo_order {α : Type} (vs : List α) (cap : Nat)
    (sched : List Bool) :
    (spscRun cap vs sched).received ++ (spscRun cap vs sched).buf ++
      (spscRun cap vs sched).pending = vs ∧
    (spscRun cap vs (spscFairSched vs)).received = vs := by
  constructor
  · simpa [spscInit] using spscRun_conserves_aux cap sched (spscInit vs)
  · simp [spscRun, spscInit, spscFair_delivers_aux cap vs []]

/-! ## More list helpers for the concurrent machines -/

theorem getD_eq_getD {α : Type} (l : List α) (k : Nat) (d1 d2 : α)
    (h : k < l.length) : l.getD k d1 = l.getD k d2 := by
  induction l generalizing k with
  | nil => simp at h
  | cons a tl ih =>
    cases k with
    | zero => simp [List.getD]
    | succ k => simpa [List.getD] using ih k (by simpa using h)

theorem getD_mem {α : Type} (l : List α) (k : Nat) (d : α)
    (h : k < l.length) : l.getD k d ∈ l := by
  induction l generalizing k with
  | nil => simp at h
  | cons a tl ih =>
    cases k with
    | zero => simp [List.getD]
    | succ k =>
      exact List.mem_cons_of_mem a (by simpa [List.getD] using ih k (by simpa using h))

theorem getD_replicate_self {α : Type} (n k : Nat) (v : α) :
    (List.replicate n v).getD k v = v := by
  induction n generalizing k with
  | zero => simp [List.getD]
  | succ n ih =>
    cases k with
    | zero => simp [List.replicate_succ, List.getD]
    | succ k => simpa [List.replicate_succ, List.getD] using ih k

theorem getD_append_len {α : Type} (front : List α) (a d : α) (rest : List α) :
    (front ++ a :: rest).getD front.length d = a := by
  induction front with
  | nil => simp [List.getD]
  | cons b tl ih => simpa [List.getD] using ih

theorem set_append_len {α : Type} (front : List α) (a b : α) (rest : List α) :
    (front ++ a :: rest).set front.length b = front ++ b :: rest := by
  induction front with
  | nil => simp
  | cons c tl ih => simp [ih]

def sumLen {α : Type} (l : List (List α)) : Nat := (l.map List.length).sum

theorem sumLen_set {α : Type} (l : List (List α)) (k : Nat) (v : α)
    (rest : List α) (h : l.getD k [] = v :: rest) :
    sumLen (l.set k rest) + 1 = sumLen l := by
  induction l generalizing k with
  | nil => simp [List.getD] at h
  | cons a tl ih =>
    cases k with
    | zero =>
      simp [List.getD] at h
      simp [sumLen, h]
      omega
    | succ k =>
      have := ih k (by simpa [List.getD] using h)
      simp [sumLen] at this
      simp [sumLen]
      omega

theorem sumLen_eq_zero {α : Type} (l : List (List α))
    (h : ∀ k, k < l.length → l.getD k [] = []) : sumLen l = 0 := by
  induction l with
  | nil => rfl
  | cons a tl ih =>
    have ha : a = [] := by simpa [List.getD] using h 0 (by simp)
    have htl : ∀ k, k < tl.length → tl.getD k [] = [] := by
      intro k hk
      simpa [List.getD] using h (k + 1) (by simpa using Nat.succ_lt_succ hk)
    simp [sumLen, ha]
    simpa [sumLen] using ih htl

/-! ## Fan-in merger machine (C1)

`fanIn` (channels.go:223) spawns one forwarding goroutine per input
channel; each forwards its input's values in order to the shared output
channel and calls `wg.Done()` after its input is closed and drained; a
dedicated closer goroutine blocks in `wg.Wait()` and then closes the
output exactly once.  The machine below makes every interleaving of these
goroutines explicit: `ins` holds each input's remaining values, `done`
the per-forwarder WaitGroup flags, `trace` the events on the output
channel (a completed forward `ChEv.val v`, or the close `ChEv.closeEv`).
An action whose guard does not hold (forwarding from an exhausted input,
finishing twice or before drained, closing before `wg.Wait` would return
or a second time) is a blocked goroutine and leaves the state unchanged,
so safety over all schedules covers all real interleavings. -/

inductive ChEv (α : Type) where
  | val (v : α)
  | closeEv
deriving DecidableEq

def valCount {α : Type} : List (ChEv α) → Nat
  | [] => 0
  | ChEv.val _ :: tr => valCount tr + 1
  | ChEv.closeEv :: tr => valCount tr

def closeCount {α : Type} : List (ChEv α) → Nat
  | [] => 0
  | ChEv.val _ :: tr => closeCount tr
  | ChEv.closeEv :: tr => closeCount tr + 1

theorem valCount_append {α : Type} (t1 t2 : List (ChEv α)) :
    valCount (t1 ++ t2) = valCount t1 + valCount t2 := by
  induction t1 with
  | nil => simp [valCount]
  | cons e tr ih => cases e <;> simp [valCount, ih] <;> omega

theorem closeCount_append {α : Type} (t1 t2 : List (ChEv α)) :
    closeCount (t1 ++ t2) = closeCount t1 + closeCount t2 := by
  induction t1 with
  | nil => simp [closeCount]
  | cons e tr ih => cases e <;> simp [closeCount, ih] <;> omega

theorem valCount_map_val {α : Type} (l : List α) :
    valCount (l.map ChEv.val) = l.length := by
  induction l with
  | nil => rfl
  | cons v tl ih => simp [valCount, ih]

theorem closeCount_map_val {α : Type} (l : List α) :
    closeCount (l.map ChEv.val) = 0 := by
  induction l with
  | nil => rfl
  | cons v tl ih => simpa [closeCount] using ih

structure FanInState (α : Type) where
  ins : List (List α)
  done : List Bool
  outClosed : Bool
  trace : List (ChEv α)
deriving DecidableEq

inductive FanInAct where
  | fwd (k : Nat)
  | fin (k : Nat)
  | closeAct
deriving DecidableEq

def fanInStep {α : Type} (s : FanInState α) : FanInAct → FanInState α
  | FanInAct.fwd k =>
    match s.ins.getD k [] with
    | [] => s
    | v :: rest =>
      { s with ins := s.ins.set k rest, trace := s.trace ++ [ChEv.val v] }
  | FanInAct.fin k =>
    if (s.ins.getD k []).isEmpty && !(s.done.getD k true) then
      { s with done := s.done.set k true }
    else s
  | FanInAct.closeAct =>
    if s.done.all (fun b => b) && !s.outClosed then
      { s with outClosed := true, trace := s.trace ++ [ChEv.closeEv] }
    else s

def fanInInit {α : Type} (ins : List (List α)) : FanInState α :=
  FanInState.mk ins (List.replicate ins.length false) false []

def fanInRun {α : Type} (ins : List (List α)) (sched : List FanInAct) :
    FanInState α :=
  sched.foldl fanInStep (fanInInit ins)

def FanInInv {α : Type} (M : Nat) (s : FanInState α) : Prop :=
  s.done.length = s.ins.length ∧
  (∀ k, s.done.getD k false = true → s.ins.getD k [] = []) ∧
  valCount s.trace + sumLen s.ins = M ∧
  closeCount s.trace = (if s.outClosed then 1 else 0) ∧
  (s.outClosed = true → s.done.all (fun b => b) = true) ∧
  (s.outClosed = true → s.trace.getLast? = some ChEv.closeEv)

theorem fanIn_all_done_ins_empty {α : Type} (s : FanInState α)
    (hlen : s.done.length = s.ins.length)
    (hinv : ∀ k, s.done.getD k false = true → s.ins.getD k [] = [])
    (hall : s.done.all (fun b => b) = true) :
    ∀ k, s.ins.getD k [] = [] := by
  intro k
  by_cases hk : k < s.ins.length
  · have hkd : k < s.done.length := by omega
    have hmem : s.done.getD k false ∈ s.done := getD_mem s.done k false hkd
    exact hinv k (List.all_eq_true.mp hall _ hmem)
  · exact getD_of_len_le s.ins k [] (by omega)

theorem fanInStep_fwd_nil {α : Type} (s : FanInState α) (k : Nat)
    (hm : s.ins.getD k [] = []) : fanInStep s (FanInAct.fwd k) = s := by
  simp only [fanInStep]
  rw [hm]

theorem fanInStep_fwd_cons {α : Type} (s : FanInState α) (k : Nat) (v : α)
    (rest : List α) (hm : s.ins.getD k [] = v :: rest) :
    fanInStep s (FanInAct.fwd k) =
      { s with ins := s.ins.set k rest, trace := s.trace ++ [ChEv.val v] } := by
  simp only [fanInStep]
  rw [hm]

theorem fanInStep_fin_pos {α : Type} (s : FanInState α) (k : Nat)
    (hg : ((s.ins.getD k []).isEmpty && !(s.done.getD k true)) = true) :
    fanInStep s (FanInAct.fin k) = { s with done := s.done.set k true } := by
  simp only [fanInStep]
  rw [if_pos hg]

theorem fanInStep_fin_neg {α : Type} (s : FanInState α) (k : Nat)
    (hg : ((s.ins.getD k []).isEmpty && !(s.done.getD k true)) = false) :
    fanInStep s (FanInAct.fin k) = s := by
  have hng : ¬ (((s.ins.getD k []).isEmpty && !(s.done.getD k true)) = true) := by
    rw [hg]
    exact Bool.false_ne_true
  simp only [fanInStep]
  rw [if_neg hng]

theorem fanInStep_close_pos {α : Type} (s : FanInState α)
    (hg : (s.done.all (fun b => b) && !s.outClosed) = true) :
    fanInStep s FanInAct.closeAct =
      { s with outClosed := true, trace := s.trace ++ [ChEv.closeEv] } := by
  simp only [fanInStep]
  rw [if_pos hg]

theorem fanInStep_close_neg {α : Type} (s : FanInState α)
    (hg : (s.done.all (fun b => b) && !s.outClosed) = false) :
    fanInStep s FanInAct.closeAct = s := by
  have hng : ¬ ((s.done.all (fun b => b) && !s.outClosed) = true) := by
    rw [hg]
    exact Bool.false_ne_true
  simp only [fanInStep]
  rw [if_neg hng]

theorem fanInStep_inv {α : Type} (M : Nat) (s : FanInState α) (a : FanInAct)
    (h : FanInInv M s) : FanInInv M (fanInStep s a) := by
  obtain ⟨h1, h2, h3, h4, h5, h6⟩ := h
  cases a with
  | fwd k =>
    cases hm : s.ins.getD k [] with
    | nil =>
      rw [fanInStep_fwd_nil s k hm]
      exact ⟨h1, h2, h3, h4, h5, h6⟩
    | cons v rest =>
      have hk : k < s.ins.length := by
        by_contra hk
        rw [getD_of_len_le s.ins k [] (by omega)] at hm
        exact List.noConfusion hm
      have hnc : s.outClosed = false := by
        cases hc : s.outClosed with
        | false => rfl
        | true =>
          have := fanIn_all_done_ins_empty s h1 h2 (h5 hc) k
          rw [hm] at this
          exact absurd this (by simp)
      rw [fanInStep_fwd_cons s k v rest hm]
      refine ⟨?_, ?_, ?_, ?_, ?_, ?_⟩
      · simpa using h1
      · intro j hj
        simp only at hj ⊢
        by_cases hjk : k = j
        · subst hjk
          exact absurd (h2 k hj) (by rw [hm]; simp)
        · rw [getD_set_ne s.ins k j rest [] hjk]
          exact h2 j hj
      · simp only
        rw [valCount_append]
        have hs := sumLen_set s.ins k v rest hm
        simp [valCount]
        omega
      · simp only
        rw [closeCount_append]
        simpa [closeCount] using h4
      · intro hc
        simp only at hc
        exact absurd hc (by simp [hnc])
      · intro hc
        simp only at hc
        exact absurd hc (by simp [hnc])
  | fin k =>
    cases hg : ((s.ins.getD k []).isEmpty && !(s.done.getD k true)) with
    | false =>
      rw [fanInStep_fin_neg s k hg]
      exact ⟨h1, h2, h3, h4, h5, h6⟩
    | true =>
      have hge : (s.ins.getD k []).isEmpty = true ∧ s.done.getD k true = false := by
        have hsplit := Bool.and_eq_true_iff.mp hg
        exact ⟨hsplit.1, by simpa using hsplit.2⟩
      have hkd : k < s.done.length := by
        by_contra hkd
        rw [getD_of_len_le s.done k true (by omega)] at hge
        exact Bool.noConfusion hge.2
      have hins : s.ins.getD k [] = [] := by
        cases hl : s.ins.getD k [] with
        | nil => rfl
        | cons x xs =>
          rw [hl] at hge
          exact absurd hge.1 (by simp)
      rw [fanInStep_fin_pos s k hg]
      refine ⟨?_, ?_, ?_, ?_, ?_, ?_⟩
      · simpa using h1
      · intro j hj
        simp only at hj ⊢
        by_cases hjk : k = j
        · subst hjk
          exact hins
        · rw [getD_set_ne s.done k j true false hjk] at hj
          exact h2 j hj
      · exact h3
      · exact h4
      · intro hc
        simp only at hc
        have hall := h5 hc
        have hmem : s.done.getD k true ∈ s.done := getD_mem s.done k true hkd
        have := List.all_eq_true.mp hall _ hmem
        rw [hge.2] at this
        exact Bool.noConfusion this
      · intro hc
        simp only at hc
        have hall := h5 hc
        have hmem : s.done.getD k true ∈ s.done := getD_mem s.done k true hkd
        have := List.all_eq_true.mp hall _ hmem
        rw [hge.2] at this
        exact Bool.noConfusion this
  | closeAct =>
    cases hg : (s.done.all (fun b => b) && !s.outClosed) with
    | false =>
      rw [fanInStep_close_neg s hg]
      exact ⟨h1, h2, h3, h4, h5, h6⟩
    | true =>
      have hge : s.done.all (fun b => b) = true ∧ s.outClosed = false := by
        have hsplit := Bool.and_eq_true_iff.mp hg
        exact ⟨hsplit.1, by simpa using hsplit.2⟩
      rw [fanInStep_close_pos s hg]
      refine ⟨h1, h2, ?_, ?_, fun _ => hge.1, fun _ => ?_⟩
      · simp only
        rw [valCount_append]
        simpa [valCount] using h3
      · simp only
        rw [closeCount_append]
        simp [closeCount, h4, hge.2]
      · simp only
        exact List.getLast?_concat _

theorem fanInInit_inv {α : Type} (ins : List (List α)) :
    FanInInv (sumLen ins) (fanInInit ins) := by
  refine ⟨by simp [fanInInit], ?_, by simp [fanInInit, valCount], ?_, ?_, ?_⟩
  · intro k hk
    simp only [fanInInit] at hk
    rw [getD_replicate_self] at hk
    exact Bool.noConfusion hk
  · simp [fanInInit, closeCount]
  · intro hc
    simp [fanInInit] at hc
  · intro hc
    simp [fanInInit] at hc

theorem fanInRun_inv_aux {α : Type} (M : Nat) (sched : List FanInAct)
    (s : FanInState α) (h : FanInInv M s) :
    FanInInv M (sched.foldl fanInStep s) := by
  induction sched generalizing s with
  | nil => exact h
  | cons a rest ih => exact ih (fanInStep s a) (fanInStep_inv M s a h)

/-- One forwarder goroutine per input, scheduled here input by input. -/
def drainSched {α : Type} (off : Nat) : List (List α) → List FanInAct
  | [] => []
  | l :: ls => List.replicate l.length (FanInAct.fwd off) ++ drainSched (off + 1) ls

def finSched (n : Nat) : List FanInAct :=
  (List.range' 0 n).map FanInAct.fin

def fanInFullSched {α : Type} (ins : List (List α)) : List FanInAct :=
  drainSched 0 ins ++ finSched ins.length ++ [FanInAct.closeAct]

theorem fanInStep_fwd_cons_mk {α : Type} (ins0 : List (List α))
    (done0 : List Bool) (oc : Bool) (tr : List (ChEv α)) (k : Nat) (v : α)
    (rest : List α) (hm : ins0.getD k [] = v :: rest) :
    fanInStep (FanInState.mk ins0 done0 oc tr) (FanInAct.fwd k) =
      FanInState.mk (ins0.set k rest) done0 oc (tr ++ [ChEv.val v]) := by
  simp only [fanInStep]
  rw [show (FanInState.mk ins0 done0 oc tr).ins.getD k [] = v :: rest from hm]

theorem fanInStep_fin_pos_mk {α : Type} (ins0 : List (List α))
    (done0 : List Bool) (oc : Bool) (tr : List (ChEv α)) (k : Nat)
    (hg : ((ins0.getD k []).isEmpty && !(done0.getD k true)) = true) :
    fanInStep (FanInState.mk ins0 done0 oc tr) (FanInAct.fin k) =
      FanInState.mk ins0 (done0.set k true) oc tr := by
  simp only [fanInStep]
  rw [if_pos hg]

theorem fanInStep_close_pos_mk {α : Type} (ins0 : List (List α))
    (done0 : List Bool) (tr : List (ChEv α))
    (hall : done0.all (fun b => b) = true) :
    fanInStep (FanInState.mk ins0 done0 false tr) FanInAct.closeAct =
      FanInState.mk ins0 done0 true (tr ++ [ChEv.closeEv]) := by
  simp only [fanInStep]
  rw [if_pos (by rw [hall]; rfl)]

theorem fanIn_drain_one {α : Type} (l : List α) (k : Nat) :
    ∀ (ins0 : List (List α)) (done0 : List Bool) (oc : Bool)
      (tr : List (ChEv α)), k < ins0.length → ins0.getD k [] = l →
      (List.replicate l.length (FanInAct.fwd k)).foldl fanInStep
          (FanInState.mk ins0 done0 oc tr) =
        FanInState.mk (ins0.set k []) done0 oc (tr ++ l.map ChEv.val) := by
  induction l with
  | nil =>
    intro ins0 done0 oc tr hk hm
    simp only [List.length_nil, List.replicate, List.foldl_nil]
    rw [set_getD_eq_self ins0 k [] [] hm hk]
    simp
  | cons v rest ih =>
    intro ins0 done0 oc tr hk hm
    rw [show (v :: rest).length = rest.length + 1 from rfl, List.replicate_succ,
      List.foldl_cons, fanInStep_fwd_cons_mk ins0 done0 oc tr k v rest hm]
    have hk1 : k < (ins0.set k rest).length := by
      rw [List.length_set]
      exact hk
    have hm1 : (ins0.set k rest).getD k [] = rest := getD_set_self ins0 k rest [] hk
    rw [ih (ins0.set k rest) done0 oc (tr ++ [ChEv.val v]) hk1 hm1,
      List.set_set]
    simp [List.append_assoc]

theorem fanIn_drain_all {α : Type} (ls : List (List α)) :
    ∀ (front : List (List α)) (done0 : List Bool) (oc : Bool)
      (tr : List (ChEv α)),
      (drainSched front.length ls).foldl fanInStep
          (FanInState.mk (front ++ ls) done0 oc tr) =
        FanInState.mk (front ++ List.replicate ls.length []) done0 oc
          (tr ++ ls.join.map ChEv.val) := by
  induction ls with
  | nil =>
    intro front done0 oc tr
    simp [drainSched, List.replicate]
  | cons l ls ih =>
    intro front done0 oc tr
    rw [show drainSched front.length (l :: ls) =
      List.replicate l.length (FanInAct.fwd front.length) ++
        drainSched (front.length + 1) ls from rfl, List.foldl_append]
    have hk : front.length < (front ++ l :: ls).length := by
      rw [List.length_append, List.length_cons]
      omega
    have hm : (front ++ l :: ls).getD front.length [] = l :=
      getD_append_len front l [] ls
    rw [fanIn_drain_one l front.length (front ++ l :: ls) done0 oc tr hk hm,
      set_append_len front l [] ls]
    have hih := ih (front ++ [([] : List α)]) done0 oc (tr ++ l.map ChEv.val)
    rw [show (front ++ [([] : List α)]).length = front.length + 1 by simp] at hih
    rw [show front ++ ([] : List α) :: ls = (front ++ [([] : List α)]) ++ ls by
      simp]
    rw [hih]
    simp [List.append_assoc, List.replicate_succ]

theorem fanIn_fin_all {α : Type} (n : Nat) :
    ∀ (dfront : List Bool) (ins0 : List (List α)) (oc : Bool)
      (tr : List (ChEv α)), (∀ k, ins0.getD k [] = []) →
      ((List.range' dfront.length n).map FanInAct.fin).foldl fanInStep
          (FanInState.mk ins0 (dfront ++ List.replicate n false) oc tr) =
        FanInState.mk ins0 (dfront ++ List.replicate n true) oc tr := by
  induction n with
  | zero =>
    intro dfront ins0 oc tr hins
    simp [List.range', List.replicate]
  | succ n ih =>
    intro dfront ins0 oc tr hins
    rw [show List.range' dfront.length (n + 1) =
      dfront.length :: List.range' (dfront.length + 1) n from rfl,
      List.map_cons, List.foldl_cons]
    have hg : ((ins0.getD dfront.length []).isEmpty &&
        !((dfront ++ List.replicate (n + 1) false).getD dfront.length true)) =
        true := by
      rw [hins dfront.length, List.replicate_succ,
        getD_append_len dfront false true (List.replicate n false)]
      rfl
    rw [fanInStep_fin_pos_mk ins0 (dfront ++ List.replicate (n + 1) false) oc
      tr dfront.length hg]
    rw [List.replicate_succ, set_append_len dfront false true
      (List.replicate n false)]
    have hih := ih (dfront ++ [true]) ins0 oc tr hins
    rw [show (dfront ++ [true]).length = dfront.length + 1 by simp] at hih
    rw [show dfront ++ true :: List.replicate n false =
      (dfront ++ [true]) ++ List.replicate n false by simp]
    rw [hih]
    simp [List.append_assoc, List.replicate_succ]

theorem all_replicate_true (n : Nat) :
    (List.replicate n true).all (fun b => b) = true := by
  rw [List.all_eq_true]
  intro x hx
  simpa using List.eq_of_mem_replicate hx

theorem fanIn_full_run {α : Type} (ins : List (List α)) :
    fanInRun ins (fanInFullSched ins) =
      FanInState.mk (List.replicate ins.length [])
        (List.replicate ins.length true) true
        (ins.join.map ChEv.val ++ [ChEv.closeEv]) := by
  unfold fanInRun fanInFullSched fanInInit
  rw [List.foldl_append, List.foldl_append]
  have hd : (drainSched 0 ins).foldl fanInStep
      (FanInState.mk ins (List.replicate ins.length false) false []) =
      FanInState.mk (List.replicate ins.length [])
        (List.replicate ins.length false) false (ins.join.map ChEv.val) := by
    simpa using fanIn_drain_all ins [] (List.replicate ins.length false)
      false []
  rw [hd]
  have hf : ((List.range' 0 ins.length).map FanInAct.fin).foldl fanInStep
      (FanInState.mk (List.replicate ins.length [])
        (List.replicate ins.length false) false (ins.join.map ChEv.val)) =
      FanInState.mk (List.replicate ins.length [])
        (List.replicate ins.length true) false (ins.join.map ChEv.val) := by
    simpa using fanIn_fin_all ins.length [] (List.replicate ins.length [])
      false (ins.join.map ChEv.val)
      (fun k => getD_replicate_self ins.length k [])
  rw [show finSched ins.length =
    (List.range' 0 ins.length).map FanInAct.fin from rfl, hf]
  simp only [List.foldl_cons, List.foldl_nil]
  rw [fanInStep_close_pos_mk (List.replicate ins.length [])
    (List.replicate ins.length true) (ins.join.map ChEv.val)
    (all_replicate_true ins.length)]

theorem fanin_conserves_and_closes_once {α : Type} (ins : List (List α)) :
    (∀ sched : List FanInAct,
      ((fanInRun ins sched).outClosed = true →
        valCount (fanInRun ins sched).trace = sumLen ins ∧
        closeCount (fanInRun ins sched).trace = 1 ∧
        (fanInRun ins sched).trace.getLast? = some ChEv.closeEv) ∧
      ((fanInRun ins sched).outClosed = false →
        closeCount (fanInRun ins sched).trace = 0)) ∧
    (fanInRun ins (fanInFullSched ins)).trace =
      ins.join.map ChEv.val ++ [ChEv.closeEv] ∧
    (ins = [] → fanInRun ins [FanInAct.closeAct] =
      FanInState.mk [] [] true [ChEv.closeEv]) := by
  refine ⟨fun sched => ?_, by rw [fanIn_full_run ins], fun hnil => ?_⟩
  · simp only [fanInRun]
    have hinv := fanInRun_inv_aux (sumLen ins) sched (fanInInit ins)
      (fanInInit_inv ins)
    obtain ⟨h1, h2, h3, h4, h5, h6⟩ := hinv
    constructor
    · intro hc
      refine ⟨?_, by rw [h4, if_pos hc], h6 hc⟩
      have hempty : ∀ k, k < (sched.foldl fanInStep (fanInInit ins)).ins.length →
          (sched.foldl fanInStep (fanInInit ins)).ins.getD k [] = [] :=
        fun k _ => fanIn_all_done_ins_empty (sched.foldl fanInStep (fanInInit ins))
          h1 h2 (h5 hc) k
      have hz := sumLen_eq_zero (sched.foldl fanInStep (fanInInit ins)).ins hempty
      omega
    · intro hc
      rw [h4, if_neg (by rw [hc]; exact Bool.false_ne_true)]
  · subst hnil
    rfl

theorem fanin_conserves_and_closes_once_witness :
    valCount (fanInRun [[1, 2], [3]] (fanInFullSched [[1, 2], [3]])).trace =
      sumLen [[1, 2], [3]] ∧
    closeCount (fanInRun [[1, 2], [3]] (fanInFullSched [[1, 2], [3]])).trace = 1 ∧
    fanInRun ([] : List (List Nat)) [FanInAct.closeAct] =
      FanInState.mk [] [] true [ChEv.closeEv] := by
  have h := fanin_conserves_and_closes_once [[1, 2], [3]]
  have h0 := fanin_conserves_and_closes_once ([] : List (List Nat))
  have hc : (fanInRun [[1, 2], [3]] (fanInFullSched [[1, 2], [3]])).outClosed =
      true := by decide
  have hm := (h.1 (fanInFullSched [[1, 2], [3]])).1 hc
  exact ⟨hm.1, hm.2.1, h0.2.2 rfl⟩

/-! ## Worker pool machine (C2)

`workerPoolExample` (goroutines.go:88) starts one producer goroutine that
sends `numTasks` tasks into the task channel (capacity `numTasks`) and then
closes it, W workers (goroutines.go:68) that each loop — receive a task,
process it, send one result — until the task channel is closed and
drained, and a closer goroutine that waits on the WaitGroup and closes the
results channel.  The machine makes every interleaving explicit.  A worker
is `idle` (at the top of its loop), `busy t` (holding a received task
before sending its result), or `finished` (its range loop has exited and
`wg.Done` has run).  The source's result string is determined by the pair
of worker id and task, so a Result is modelled as that pair.  The results
channel has capacity `numTasks`, at least the total number of results, so
result sends never block and the results channel is modelled by its event
trace. -/

inductive WStatus where
  | idle
  | busy (t : GoTask)
  | finished
deriving DecidableEq

structure WPState where
  toSend : List GoTask
  taskBuf : List GoTask
  taskClosed : Bool
  workers : List WStatus
  resClosed : Bool
  resTrace : List (ChEv (Nat × GoTask))
deriving DecidableEq

inductive WPAct where
  | prodSend
  | prodClose
  | wrecv (k : Nat)
  | wemit (k : Nat)
  | wexit (k : Nat)
  | resCloseAct
deriving DecidableEq

def isFinished : WStatus → Bool
  | WStatus.finished => true
  | WStatus.idle => false
  | WStatus.busy _ => false

def busyTasks : List WStatus → List GoTask
  | [] => []
  | WStatus.busy t :: ws => t :: busyTasks ws
  | WStatus.idle :: ws => busyTasks ws
  | WStatus.finished :: ws => busyTasks ws

def wpStep (cap : Nat) (s : WPState) : WPAct → WPState
  | WPAct.prodSend =>
    match s.toSend with
    | [] => s
    | t :: rest =>
      if s.taskBuf.length < cap then
        { s with toSend := rest, taskBuf := s.taskBuf ++ [t] }
      else s
  | WPAct.prodClose =>
    if s.toSend.isEmpty && !s.taskClosed then { s with taskClosed := true }
    else s
  | WPAct.wrecv k =>
    match s.workers.getD k WStatus.finished, s.taskBuf with
    | WStatus.idle, t :: rest =>
      { s with workers := s.workers.set k (WStatus.busy t), taskBuf := rest }
    | _, _ => s
  | WPAct.wemit k =>
    match s.workers.getD k WStatus.finished with
    | WStatus.busy t =>
      { s with workers := s.workers.set k WStatus.idle,
               resTrace := s.resTrace ++ [ChEv.val (k, t)] }
    | _ => s
  | WPAct.wexit k =>
    match s.workers.getD k WStatus.finished with
    | WStatus.idle =>
      if s.taskBuf.isEmpty && s.taskClosed then
        { s with workers := s.workers.set k WStatus.finished }
      else s
    | _ => s
  | WPAct.resCloseAct =>
    if s.workers.all isFinished && !s.resClosed then
      { s with resClosed := true, resTrace := s.resTrace ++ [ChEv.closeEv] }
    else s

def wpInit (tasks : List GoTask) (W : Nat) : WPState :=
  WPState.mk tasks [] false (List.replicate W WStatus.idle) false []

def wpRun (tasks : List GoTask) (W : Nat) (sched : List WPAct) : WPState :=
  sched.foldl (wpStep tasks.length) (wpInit tasks W)

def valsOf {α : Type} : List (ChEv α) → List α
  | [] => []
  | ChEv.val v :: tr => v :: valsOf tr
  | ChEv.closeEv :: tr => valsOf tr

theorem valsOf_append {α : Type} (t1 t2 : List (ChEv α)) :
    valsOf (t1 ++ t2) = valsOf t1 ++ valsOf t2 := by
  induction t1 with
  | nil => simp [valsOf]
  | cons e tr ih => cases e <;> simp [valsOf, ih]

theorem any_set_congr {α : Type} (l : List α) (k : Nat) (v d : α)
    (p : α → Bool) (h : p v = p (l.getD k d)) :
    (l.set k v).any p = l.any p := by
  induction l generalizing k with
  | nil => simp
  | cons a tl ih =>
    cases k with
    | zero =>
      simp only [List.getD] at h
      simp [List.any_cons, h]
    | succ k =>
      simp only [List.getD] at h
      simp [List.any_cons, ih k h]

theorem all_set_congr {α : Type} (l : List α) (k : Nat) (v d : α)
    (p : α → Bool) (h : p v = p (l.getD k d)) :
    (l.set k v).all p = l.all p := by
  induction l generalizing k with
  | nil => simp
  | cons a tl ih =>
    cases k with
    | zero =>
      simp only [List.getD] at h
      simp [List.all_cons, h]
    | succ k =>
      simp only [List.getD] at h
      simp [List.all_cons, ih k h]

theorem all_false_of_getD {α : Type} (l : List α) (k : Nat) (d : α)
    (p : α → Bool) (hk : k < l.length) (h : p (l.getD k d) = false) :
    l.all p = false := by
  cases hall : l.all p with
  | false => rfl
  | true =>
    have := List.all_eq_true.mp hall _ (getD_mem l k d hk)
    rw [h] at this
    exact Bool.noConfusion this

theorem any_of_all_ne_nil {α : Type} (l : List α) (p : α → Bool)
    (hne : l ≠ []) (h : l.all p = true) : l.any p = true := by
  cases l with
  | nil => exact absurd rfl hne
  | cons a tl =>
    rw [List.all_cons, Bool.and_eq_true_iff] at h
    simp [List.any_cons, h.1]

theorem all_replicate_of {α : Type} (n : Nat) (v : α) (p : α → Bool)
    (h : p v = true) : (List.replicate n v).all p = true := by
  rw [List.all_eq_true]
  intro x hx
  rw [List.eq_of_mem_replicate hx]
  exact h

theorem getD_replicate_zero {α : Type} (n : Nat) (v d : α) (h : 0 < n) :
    (List.replicate n v).getD 0 d = v := by
  cases n with
  | zero => simp at h
  | succ n => simp [List.replicate_succ, List.getD]

theorem busyTasks_set_busy (ws : List WStatus) (k : Nat) (t : GoTask)
    (h : ws.getD k WStatus.finished = WStatus.idle) :
    (busyTasks (ws.set k (WStatus.busy t))).Perm (t :: busyTasks ws) := by
  induction ws generalizing k with
  | nil => simp [List.getD] at h
  | cons w tl ih =>
    cases k with
    | zero =>
      simp only [List.getD] at h
      subst h
      simp [busyTasks]
    | succ k =>
      simp only [List.getD] at h
      cases w with
      | idle => simpa [busyTasks] using ih k h
      | finished => simpa [busyTasks] using ih k h
      | busy u =>
        simp only [List.set, busyTasks]
        exact (List.Perm.cons u (ih k h)).trans (List.Perm.swap t u _)

theorem busyTasks_set_idle (ws : List WStatus) (k : Nat) (t : GoTask)
    (h : ws.getD k WStatus.finished = WStatus.busy t) :
    (busyTasks ws).Perm (t :: busyTasks (ws.set k WStatus.idle)) := by
  induction ws generalizing k with
  | nil => simp [List.getD] at h
  | cons w tl ih =>
    cases k with
    | zero =>
      simp only [List.getD] at h
      subst h
      simp [busyTasks]
    | succ k =>
      simp only [List.getD] at h
      cases w with
      | idle => simpa [busyTasks] using ih k h
      | finished => simpa [busyTasks] using ih k h
      | busy u =>
        simp only [List.set, busyTasks]
        exact (List.Perm.cons u (ih k h)).trans (List.Perm.swap t u _)

theorem busyTasks_set_finished (ws : List WStatus) (k : Nat)
    (h : ws.getD k WStatus.finished = WStatus.idle) :
    busyTasks (ws.set k WStatus.finished) = busyTasks ws := by
  induction ws generalizing k with
  | nil => simp
  | cons w tl ih =>
    cases k with
    | zero =>
      simp only [List.getD] at h
      subst h
      simp [busyTasks]
    | succ k =>
      simp only [List.getD] at h
      cases w <;> simp [busyTasks, ih k h]

theorem busyTasks_of_all_finished (ws : List WStatus)
    (h : ws.all isFinished = true) : busyTasks ws = [] := by
  induction ws with
  | nil => rfl
  | cons w tl ih =>
    rw [List.all_cons, Bool.and_eq_true_iff] at h
    cases w with
    | idle => exact Bool.noConfusion h.1
    | busy t => exact Bool.noConfusion h.1
    | finished => simp [busyTasks, ih h.2]

theorem wpStep_prodSend_nil (cap : Nat) (s : WPState) (h : s.toSend = []) :
    wpStep cap s WPAct.prodSend = s := by
  simp only [wpStep]
  rw [h]

theorem wpStep_prodSend_pos (cap : Nat) (s : WPState) (t : GoTask)
    (rest : List GoTask) (h : s.toSend = t :: rest)
    (hlen : s.taskBuf.length < cap) :
    wpStep cap s WPAct.prodSend =
      { s with toSend := rest, taskBuf := s.taskBuf ++ [t] } := by
  simp only [wpStep]
  rw [h]
  simp [hlen]

theorem wpStep_prodSend_neg (cap : Nat) (s : WPState) (t : GoTask)
    (rest : List GoTask) (h : s.toSend = t :: rest)
    (hlen : ¬ s.taskBuf.length < cap) :
    wpStep cap s WPAct.prodSend = s := by
  simp only [wpStep]
  rw [h]
  simp [hlen]

theorem wpStep_prodClose_pos (cap : Nat) (s : WPState)
    (h : (s.toSend.isEmpty && !s.taskClosed) = true) :
    wpStep cap s WPAct.prodClose = { s with taskClosed := true } := by
  simp only [wpStep]
  rw [if_pos h]

theorem wpStep_prodClose_neg (cap : Nat) (s : WPState)
    (h : (s.toSend.isEmpty && !s.taskClosed) = false) :
    wpStep cap s WPAct.prodClose = s := by
  simp only [wpStep]
  rw [if_neg (by rw [h]; exact Bool.false_ne_true)]

theorem wpStep_wrecv_pos (cap : Nat) (s : WPState) (k : Nat) (t : GoTask)
    (rest : List GoTask)
    (hw : s.workers.getD k WStatus.finished = WStatus.idle)
    (hb : s.taskBuf = t :: rest) :
    wpStep cap s (WPAct.wrecv k) =
      { s with workers := s.workers.set k (WStatus.busy t),
               taskBuf := rest } := by
  simp only [wpStep]
  rw [hw, hb]

theorem wpStep_wrecv_nilBuf (cap : Nat) (s : WPState) (k : Nat)
    (hb : s.taskBuf = []) : wpStep cap s (WPAct.wrecv k) = s := by
  simp only [wpStep]
  rw [hb]
  cases s.workers.getD k WStatus.finished <;> rfl

theorem wpStep_wrecv_busy (cap : Nat) (s : WPState) (k : Nat) (u : GoTask)
    (hw : s.workers.getD k WStatus.finished = WStatus.busy u) :
    wpStep cap s (WPAct.wrecv k) = s := by
  simp only [wpStep]
  rw [hw]

theorem wpStep_wrecv_finished (cap : Nat) (s : WPState) (k : Nat)
    (hw : s.workers.getD k WStatus.finished = WStatus.finished) :
    wpStep cap s (WPAct.wrecv k) = s := by
  simp only [wpStep]
  rw [hw]

theorem wpStep_wemit_pos (cap : Nat) (s : WPState) (k : Nat) (t : GoTask)
    (hw : s.workers.getD k WStatus.finished = WStatus.busy t) :
    wpStep cap s (WPAct.wemit k) =
      { s with workers := s.workers.set k WStatus.idle,
               resTrace := s.resTrace ++ [ChEv.val (k, t)] } := by
  simp only [wpStep]
  rw [hw]

theorem wpStep_wemit_idle (cap : Nat) (s : WPState) (k : Nat)
    (hw : s.workers.getD k WStatus.finished = WStatus.idle) :
    wpStep cap s (WPAct.wemit k) = s := by
  simp only [wpStep]
  rw [hw]

theorem wpStep_wemit_finished (cap : Nat) (s : WPState) (k : Nat)
    (hw : s.workers.getD k WStatus.finished = WStatus.finished) :
    wpStep cap s (WPAct.wemit k) = s := by
  simp only [wpStep]
  rw [hw]

theorem wpStep_wexit_pos (cap : Nat) (s : WPState) (k : Nat)
    (hw : s.workers.getD k WStatus.finished = WStatus.idle)
    (hg : (s.taskBuf.isEmpty && s.taskClosed) = true) :
    wpStep cap s (WPAct.wexit k) =
      { s with workers := s.workers.set k WStatus.finished } := by
  simp only [wpStep]
  rw [hw, if_pos hg]

theorem wpStep_wexit_negGuard (cap : Nat) (s : WPState) (k : Nat)
    (hw : s.workers.getD k WStatus.finished = WStatus.idle)
    (hg : (s.taskBuf.isEmpty && s.taskClosed) = false) :
    wpStep cap s (WPAct.wexit k) = s := by
  simp only [wpStep]
  rw [hw, if_neg (by rw [hg]; exact Bool.false_ne_true)]

theorem wpStep_wexit_busy (cap : Nat) (s : WPState) (k : Nat) (u : GoTask)
    (hw : s.workers.getD k WStatus.finished = WStatus.busy u) :
    wpStep cap s (WPAct.wexit k) = s := by
  simp only [wpStep]
  rw [hw]

theorem wpStep_wexit_finished (cap : Nat) (s : WPState) (k : Nat)
    (hw : s.workers.getD k WStatus.finished = WStatus.finished) :
    wpStep cap s (WPAct.wexit k) = s := by
  simp only [wpStep]
  rw [hw]

theorem wpStep_resClose_pos (cap : Nat) (s : WPState)
    (hg : (s.workers.all isFinished && !s.resClosed) = true) :
    wpStep cap s WPAct.resCloseAct =
      { s with resClosed := true,
               resTrace := s.resTrace ++ [ChEv.closeEv] } := by
  simp only [wpStep]
  rw [if_pos hg]

theorem wpStep_resClose_neg (cap : Nat) (s : WPState)
    (hg : (s.workers.all isFinished && !s.resClosed) = false) :
    wpStep cap s WPAct.resCloseAct = s := by
  simp only [wpStep]
  rw [if_neg (by rw [hg]; exact Bool.false_ne_true)]

def WPInv (tasks0 : List GoTask) (W : Nat) (s : WPState) : Prop :=
  s.workers.length = W ∧
  ((valsOf s.resTrace).map Prod.snd ++ s.toSend ++ s.taskBuf ++
    busyTasks s.workers).Perm tasks0 ∧
  closeCount s.resTrace = (if s.resClosed then 1 else 0) ∧
  (s.resClosed = true → s.workers.all isFinished = true) ∧
  (s.taskClosed = true → s.toSend = []) ∧
  (s.workers.any isFinished = true → s.taskClosed = true) ∧
  (s.workers.all isFinished = true → s.workers ≠ [] → s.taskBuf = []) ∧
  (s.resClosed = true → s.resTrace.getLast? = some ChEv.closeEv)

theorem perm_shift_buf {α : Type} (S R B T : List α) (t : α) (A : List α)
    (h : (A ++ (t :: (S ++ (R ++ B)))).Perm T) :
    (A ++ (S ++ (R ++ (t :: B)))).Perm T := by
  have hx : (S ++ (R ++ (t :: B))).Perm (t :: (S ++ (R ++ B))) :=
    ((List.perm_middle).append_left S).trans List.perm_middle
  exact (hx.append_left A).trans h

theorem wpInv_prodSend (cap : Nat) (tasks0 : List GoTask) (W : Nat)
    (s : WPState) (h : WPInv tasks0 W s) :
    WPInv tasks0 W (wpStep cap s WPAct.prodSend) := by
  obtain ⟨h1, h2, h3, h4, h5, h6, h7, h8⟩ := h
  cases hts : s.toSend with
  | nil =>
    rw [wpStep_prodSend_nil cap s hts]
    exact ⟨h1, h2, h3, h4, h5, h6, h7, h8⟩
  | cons t rest =>
    by_cases hlen : s.taskBuf.length < cap
    · rw [wpStep_prodSend_pos cap s t rest hts hlen]
      have hnotc : s.taskClosed = false := by
        cases hc : s.taskClosed with
        | false => rfl
        | true => exact absurd (h5 hc) (by rw [hts]; simp)
      refine ⟨h1, ?_, h3, h4, ?_, h6, ?_, h8⟩
      · simp only
        rw [hts] at h2
        simp only [List.append_assoc, List.cons_append, List.singleton_append,
          List.nil_append] at h2 ⊢
        exact perm_shift_buf rest s.taskBuf (busyTasks s.workers) tasks0 t
          ((valsOf s.resTrace).map Prod.snd) h2
      · intro hc
        simp only at hc
        rw [hnotc] at hc
        exact Bool.noConfusion hc
      · intro hall hne
        simp only at hall hne ⊢
        have hany := any_of_all_ne_nil s.workers isFinished hne hall
        have := h5 (h6 hany)
        rw [hts] at this
        exact List.noConfusion this
    · rw [wpStep_prodSend_neg cap s t rest hts hlen]
      exact ⟨h1, h2, h3, h4, h5, h6, h7, h8⟩

theorem wpInv_prodClose (cap : Nat) (tasks0 : List GoTask) (W : Nat)
    (s : WPState) (h : WPInv tasks0 W s) :
    WPInv tasks0 W (wpStep cap s WPAct.prodClose) := by
  obtain ⟨h1, h2, h3, h4, h5, h6, h7, h8⟩ := h
  cases hg : (s.toSend.isEmpty && !s.taskClosed) with
  | false =>
    rw [wpStep_prodClose_neg cap s hg]
    exact ⟨h1, h2, h3, h4, h5, h6, h7, h8⟩
  | true =>
    have hempty : s.toSend = [] := by
      have := (Bool.and_eq_true_iff.mp hg).1
      cases hts : s.toSend with
      | nil => rfl
      | cons a b => rw [hts] at this; exact Bool.noConfusion this
    rw [wpStep_prodClose_pos cap s hg]
    exact ⟨h1, h2, h3, h4, fun _ => hempty, fun _ => rfl, h7, h8⟩

theorem wpInv_wrecv (cap : Nat) (tasks0 : List GoTask) (W k : Nat)
    (s : WPState) (h : WPInv tasks0 W s) :
    WPInv tasks0 W (wpStep cap s (WPAct.wrecv k)) := by
  obtain ⟨h1, h2, h3, h4, h5, h6, h7, h8⟩ := h
  cases hw : s.workers.getD k WStatus.finished with
  | busy u =>
    rw [wpStep_wrecv_busy cap s k u hw]
    exact ⟨h1, h2, h3, h4, h5, h6, h7, h8⟩
  | finished =>
    rw [wpStep_wrecv_finished cap s k hw]
    exact ⟨h1, h2, h3, h4, h5, h6, h7, h8⟩
  | idle =>
    cases hb : s.taskBuf with
    | nil =>
      rw [wpStep_wrecv_nilBuf cap s k hb]
      exact ⟨h1, h2, h3, h4, h5, h6, h7, h8⟩
    | cons t rest =>
      have hk : k < s.workers.length := by
        by_contra hk
        rw [getD_of_len_le s.workers k WStatus.finished (by omega)] at hw
        exact WStatus.noConfusion hw
      have hcongr : isFinished (WStatus.busy t) =
          isFinished (s.workers.getD k WStatus.finished) := by
        rw [hw]
        rfl
      have hallc : (s.workers.set k (WStatus.busy t)).all isFinished =
          s.workers.all isFinished :=
        all_set_congr s.workers k (WStatus.busy t) WStatus.finished
          isFinished hcongr
      have hanyc : (s.workers.set k (WStatus.busy t)).any isFinished =
          s.workers.any isFinished :=
        any_set_congr s.workers k (WStatus.busy t) WStatus.finished
          isFinished hcongr
      have hallf : s.workers.all isFinished = false :=
        all_false_of_getD s.workers k WStatus.finished isFinished hk
          (by rw [hw]; rfl)
      rw [wpStep_wrecv_pos cap s k t rest hw hb]
      refine ⟨?_, ?_, h3, ?_, h5, ?_, ?_, h8⟩
      · simp only
        rw [List.length_set]
        exact h1
      · simp only
        rw [hb] at h2
        simp only [List.append_assoc, List.cons_append,
          List.nil_append] at h2 ⊢
        have hbv := busyTasks_set_busy s.workers k t hw
        have hstep1 : (rest ++ busyTasks (s.workers.set k (WStatus.busy t))).Perm
            (t :: (rest ++ busyTasks s.workers)) :=
          (hbv.append_left rest).trans List.perm_middle
        have hstep2 := hstep1.append_left s.toSend
        exact (hstep2.append_left ((valsOf s.resTrace).map Prod.snd)).trans h2
      · intro hc
        simp only at hc ⊢
        rw [hallc]
        exact h4 hc
      · intro hany
        simp only at hany
        rw [hanyc] at hany
        exact h6 hany
      · intro hall
        simp only at hall
        rw [hallc, hallf] at hall
        exact Bool.noConfusion hall

theorem wpInv_wemit (cap : Nat) (tasks0 : List GoTask) (W k : Nat)
    (s : WPState) (h : WPInv tasks0 W s) :
    WPInv tasks0 W (wpStep cap s (WPAct.wemit k)) := by
  obtain ⟨h1, h2, h3, h4, h5, h6, h7, h8⟩ := h
  cases hw : s.workers.getD k WStatus.finished with
  | idle =>
    rw [wpStep_wemit_idle cap s k hw]
    exact ⟨h1, h2, h3, h4, h5, h6, h7, h8⟩
  | finished =>
    rw [wpStep_wemit_finished cap s k hw]
    exact ⟨h1, h2, h3, h4, h5, h6, h7, h8⟩
  | busy t =>
    have hk : k < s.workers.length := by
      by_contra hk
      rw [getD_of_len_le s.workers k WStatus.finished (by omega)] at hw
      exact WStatus.noConfusion hw
    have hcongr : isFinished WStatus.idle =
        isFinished (s.workers.getD k WStatus.finished) := by
      rw [hw]
      rfl
    have hallc : (s.workers.set k WStatus.idle).all isFinished =
        s.workers.all isFinished :=
      all_set_congr s.workers k WStatus.idle WStatus.finished isFinished hcongr
    have hanyc : (s.workers.set k WStatus.idle).any isFinished =
        s.workers.any isFinished :=
      any_set_congr s.workers k WStatus.idle WStatus.finished isFinished hcongr
    have hallf : s.workers.all isFinished = false :=
      all_false_of_getD s.workers k WStatus.finished isFinished hk
        (by rw [hw]; rfl)
    have hrc : s.resClosed = false := by
      cases hc : s.resClosed with
      | false => rfl
      | true =>
        have := h4 hc
        rw [hallf] at this
        exact Bool.noConfusion this
    rw [wpStep_wemit_pos cap s k t hw]
    refine ⟨?_, ?_, ?_, ?_, h5, ?_, ?_, ?_⟩
    · simp only
      rw [List.length_set]
      exact h1
    · simp only
      rw [valsOf_append]
      simp only [valsOf, List.map_append, List.map_cons, List.map_nil,
        List.append_assoc, List.cons_append, List.nil_append] at h2 ⊢
      have hbv := busyTasks_set_idle s.workers k t hw
      have c4 : (t :: (s.taskBuf ++ busyTasks (s.workers.set k WStatus.idle))).Perm
          (s.taskBuf ++ busyTasks s.workers) :=
        List.perm_middle.symm.trans (hbv.symm.append_left s.taskBuf)
      have c6 : (t :: (s.toSend ++ (s.taskBuf ++
          busyTasks (s.workers.set k WStatus.idle)))).Perm
          (s.toSend ++ (s.taskBuf ++ busyTasks s.workers)) :=
        List.perm_middle.symm.trans (c4.append_left s.toSend)
      exact (c6.append_left ((valsOf s.resTrace).map Prod.snd)).trans h2
    · simp only
      rw [closeCount_append]
      simp [closeCount, h3]
    · intro hc
      simp only at hc
      rw [hrc] at hc
      exact Bool.noConfusion hc
    · intro hany
      simp only at hany
      rw [hanyc] at hany
      exact h6 hany
    · intro hall
      simp only at hall
      rw [hallc, hallf] at hall
      exact Bool.noConfusion hall
    · intro hc
      simp only at hc
      rw [hrc] at hc
      exact Bool.noConfusion hc

theorem wpInv_wexit (cap : Nat) (tasks0 : List GoTask) (W k : Nat)
    (s : WPState) (h : WPInv tasks0 W s) :
    WPInv tasks0 W (wpStep cap s (WPAct.wexit k)) := by
  obtain ⟨h1, h2, h3, h4, h5, h6, h7, h8⟩ := h
  cases hw : s.workers.getD k WStatus.finished with
  | busy u =>
    rw [wpStep_wexit_busy cap s k u hw]
    exact ⟨h1, h2, h3, h4, h5, h6, h7, h8⟩
  | finished =>
    rw [wpStep_wexit_finished cap s k hw]
    exact ⟨h1, h2, h3, h4, h5, h6, h7, h8⟩
  | idle =>
    cases hg : (s.taskBuf.isEmpty && s.taskClosed) with
    | false =>
      rw [wpStep_wexit_negGuard cap s k hw hg]
      exact ⟨h1, h2, h3, h4, h5, h6, h7, h8⟩
    | true =>
      have hk : k < s.workers.length := by
        by_contra hk
        rw [getD_of_len_le s.workers k WStatus.finished (by omega)] at hw
        exact WStatus.noConfusion hw
      have hge := Bool.and_eq_true_iff.mp hg
      have hbuf : s.taskBuf = [] := by
        cases hb : s.taskBuf with
        | nil => rfl
        | cons a b =>
          rw [hb] at hge
          exact absurd hge.1 (by simp)
      have htc : s.taskClosed = true := hge.2
      have hallf : s.workers.all isFinished = false :=
        all_false_of_getD s.workers k WStatus.finished isFinished hk
          (by rw [hw]; rfl)
      have hrc : s.resClosed = false := by
        cases hc : s.resClosed with
        | false => rfl
        | true =>
          have := h4 hc
          rw [hallf] at this
          exact Bool.noConfusion this
      rw [wpStep_wexit_pos cap s k hw hg]
      refine ⟨?_, ?_, h3, ?_, h5, fun _ => htc, fun _ _ => hbuf, h8⟩
      · simp only
        rw [List.length_set]
        exact h1
      · simp only
        rw [busyTasks_set_finished s.workers k hw]
        exact h2
      · intro hc
        simp only at hc
        rw [hrc] at hc
        exact Bool.noConfusion hc

theorem wpInv_resClose (cap : Nat) (tasks0 : List GoTask) (W : Nat)
    (s : WPState) (h : WPInv tasks0 W s) :
    WPInv tasks0 W (wpStep cap s WPAct.resCloseAct) := by
  obtain ⟨h1, h2, h3, h4, h5, h6, h7, h8⟩ := h
  cases hg : (s.workers.all isFinished && !s.resClosed) with
  | false =>
    rw [wpStep_resClose_neg cap s hg]
    exact ⟨h1, h2, h3, h4, h5, h6, h7, h8⟩
  | true =>
    have hge := Bool.and_eq_true_iff.mp hg
    have hall : s.workers.all isFinished = true := hge.1
    have hrc : s.resClosed = false := by
      have := hge.2
      cases hc : s.resClosed with
      | false => rfl
      | true => rw [hc] at this; exact Bool.noConfusion this
    rw [wpStep_resClose_pos cap s hg]
    refine ⟨h1, ?_, ?_, fun _ => hall, h5, h6, h7, fun _ => ?_⟩
    · simp only
      rw [valsOf_append]
      simp only [valsOf, List.append_nil]
      exact h2
    · simp only
      rw [closeCount_append, h3, hrc]
      simp [closeCount]
    · simp only
      exact List.getLast?_concat _

theorem wpStep_inv (cap : Nat) (tasks0 : List GoTask) (W : Nat)
    (s : WPState) (a : WPAct) (h : WPInv tasks0 W s) :
    WPInv tasks0 W (wpStep cap s a) := by
  cases a with
  | prodSend => exact wpInv_prodSend cap tasks0 W s h
  | prodClose => exact wpInv_prodClose cap tasks0 W s h
  | wrecv k => exact wpInv_wrecv cap tasks0 W k s h
  | wemit k => exact wpInv_wemit cap tasks0 W k s h
  | wexit k => exact wpInv_wexit cap tasks0 W k s h
  | resCloseAct => exact wpInv_resClose cap tasks0 W s h

theorem busyTasks_replicate_idle (n : Nat) :
    busyTasks (List.replicate n WStatus.idle) = [] := by
  induction n with
  | zero => rfl
  | succ n ih => simpa [List.replicate_succ, busyTasks] using ih

theorem any_replicate_idle (n : Nat) :
    (List.replicate n WStatus.idle).any isFinished = false := by
  cases hany : (List.replicate n WStatus.idle).any isFinished with
  | false => rfl
  | true =>
    obtain ⟨x, hx, hpx⟩ := List.any_eq_true.mp hany
    rw [List.eq_of_mem_replicate hx] at hpx
    exact Bool.noConfusion hpx

theorem wpInit_inv (tasks : List GoTask) (W : Nat) :
    WPInv tasks W (wpInit tasks W) := by
  refine ⟨by simp [wpInit], ?_, by simp [wpInit, closeCount], ?_, ?_, ?_,
    fun _ _ => rfl, ?_⟩
  · simp [wpInit, valsOf, busyTasks_replicate_idle]
  · intro hc
    simp [wpInit] at hc
  · intro hc
    simp [wpInit] at hc
  · intro hany
    simp only [wpInit] at hany
    rw [any_replicate_idle] at hany
    exact Bool.noConfusion hany
  · intro hc
    simp [wpInit] at hc

theorem wpRun_inv_aux (cap : Nat) (tasks0 : List GoTask) (W : Nat)
    (sched : List WPAct) (s : WPState) (h : WPInv tasks0 W s) :
    WPInv tasks0 W (sched.foldl (wpStep cap) s) := by
  induction sched generalizing s with
  | nil => exact h
  | cons a rest ih => exact ih (wpStep cap s a) (wpStep_inv cap tasks0 W s a h)

theorem wpStep_prodSend_mk (cap : Nat) (t : GoTask) (rest buf : List GoTask)
    (tc : Bool) (ws : List WStatus) (rc : Bool)
    (tr : List (ChEv (Nat × GoTask))) (hlen : buf.length < cap) :
    wpStep cap (WPState.mk (t :: rest) buf tc ws rc tr) WPAct.prodSend =
      WPState.mk rest (buf ++ [t]) tc ws rc tr := by
  rw [wpStep_prodSend_pos cap (WPState.mk (t :: rest) buf tc ws rc tr) t rest
    rfl hlen]

theorem wpStep_prodClose_mk (cap : Nat) (buf : List GoTask)
    (ws : List WStatus) (rc : Bool) (tr : List (ChEv (Nat × GoTask))) :
    wpStep cap (WPState.mk [] buf false ws rc tr) WPAct.prodClose =
      WPState.mk [] buf true ws rc tr := by
  rw [wpStep_prodClose_pos cap (WPState.mk [] buf false ws rc tr) rfl]

theorem wpStep_wrecv_mk (cap k : Nat) (t : GoTask) (rest ts : List GoTask)
    (tc : Bool) (ws : List WStatus) (rc : Bool)
    (tr : List (ChEv (Nat × GoTask)))
    (hw : ws.getD k WStatus.finished = WStatus.idle) :
    wpStep cap (WPState.mk ts (t :: rest) tc ws rc tr) (WPAct.wrecv k) =
      WPState.mk ts rest tc (ws.set k (WStatus.busy t)) rc tr := by
  rw [wpStep_wrecv_pos cap (WPState.mk ts (t :: rest) tc ws rc tr) k t rest
    hw rfl]

theorem wpStep_wemit_mk (cap k : Nat) (t : GoTask) (ts buf : List GoTask)
    (tc : Bool) (ws : List WStatus) (rc : Bool)
    (tr : List (ChEv (Nat × GoTask)))
    (hw : ws.getD k WStatus.finished = WStatus.busy t) :
    wpStep cap (WPState.mk ts buf tc ws rc tr) (WPAct.wemit k) =
      WPState.mk ts buf tc (ws.set k WStatus.idle) rc
        (tr ++ [ChEv.val (k, t)]) := by
  rw [wpStep_wemit_pos cap (WPState.mk ts buf tc ws rc tr) k t hw]

theorem wpStep_wexit_mk (cap k : Nat) (ts : List GoTask) (ws : List WStatus)
    (rc : Bool) (tr : List (ChEv (Nat × GoTask)))
    (hw : ws.getD k WStatus.finished = WStatus.idle) :
    wpStep cap (WPState.mk ts [] true ws rc tr) (WPAct.wexit k) =
      WPState.mk ts [] true (ws.set k WStatus.finished) rc tr := by
  rw [wpStep_wexit_pos cap (WPState.mk ts [] true ws rc tr) k hw rfl]

theorem wpStep_resClose_mk (cap : Nat) (ts buf : List GoTask) (tc : Bool)
    (ws : List WStatus) (tr : List (ChEv (Nat × GoTask)))
    (hall : ws.all isFinished = true) :
    wpStep cap (WPState.mk ts buf tc ws false tr) WPAct.resCloseAct =
      WPState.mk ts buf tc ws true (tr ++ [ChEv.closeEv]) := by
  rw [wpStep_resClose_pos cap (WPState.mk ts buf tc ws false tr)
    (by rw [show (WPState.mk ts buf tc ws false tr).workers = ws from rfl,
      hall]; rfl)]

/-- The explicit fair schedule: the producer sends everything and closes,
worker 0 processes every task, every worker exits, the closer closes. -/
def wpWorkSched : List GoTask → List WPAct
  | [] => []
  | _ :: rest => WPAct.wrecv 0 :: WPAct.wemit 0 :: wpWorkSched rest

def wpFullSched (tasks : List GoTask) (W : Nat) : List WPAct :=
  List.replicate tasks.length WPAct.prodSend ++ [WPAct.prodClose] ++
    wpWorkSched tasks ++ (List.range' 0 W).map WPAct.wexit ++
    [WPAct.resCloseAct]

theorem wp_send_all (cap : Nat) (l : List GoTask) :
    ∀ (buf : List GoTask) (tc : Bool) (ws : List WStatus) (rc : Bool)
      (tr : List (ChEv (Nat × GoTask))), buf.length + l.length ≤ cap →
      (List.replicate l.length WPAct.prodSend).foldl (wpStep cap)
          (WPState.mk l buf tc ws rc tr) =
        WPState.mk [] (buf ++ l) tc ws rc tr := by
  induction l with
  | nil =>
    intro buf tc ws rc tr _
    simp [List.replicate]
  | cons t rest ih =>
    intro buf tc ws rc tr hlen
    rw [show (t :: rest).length = rest.length + 1 from rfl,
      List.replicate_succ, List.foldl_cons,
      wpStep_prodSend_mk cap t rest buf tc ws rc tr (by
        rw [List.length_cons] at hlen
        omega),
      ih (buf ++ [t]) tc ws rc tr (by
        rw [List.length_cons] at hlen
        rw [List.length_append]
        simp
        omega)]
    simp

theorem wp_work_all (cap : Nat) (buf : List GoTask) :
    ∀ (ts : List GoTask) (tc : Bool) (ws : List WStatus) (rc : Bool)
      (tr : List (ChEv (Nat × GoTask))),
      ws.getD 0 WStatus.finished = WStatus.idle →
      (wpWorkSched buf).foldl (wpStep cap) (WPState.mk ts buf tc ws rc tr) =
        WPState.mk ts [] tc ws rc
          (tr ++ buf.map (fun t => ChEv.val (0, t))) := by
  induction buf with
  | nil =>
    intro ts tc ws rc tr _
    simp [wpWorkSched]
  | cons t rest ih =>
    intro ts tc ws rc tr hw
    rw [show wpWorkSched (t :: rest) =
      WPAct.wrecv 0 :: WPAct.wemit 0 :: wpWorkSched rest from rfl,
      List.foldl_cons, List.foldl_cons,
      wpStep_wrecv_mk cap 0 t rest ts tc ws rc tr hw]
    have h0 : 0 < ws.length := by
      by_contra h0
      rw [getD_of_len_le ws 0 WStatus.finished (by omega)] at hw
      exact WStatus.noConfusion hw
    have hw2 : (ws.set 0 (WStatus.busy t)).getD 0 WStatus.finished =
        WStatus.busy t := getD_set_self ws 0 (WStatus.busy t)
      WStatus.finished h0
    rw [wpStep_wemit_mk cap 0 t ts rest tc (ws.set 0 (WStatus.busy t)) rc tr
      hw2, List.set_set, set_getD_eq_self ws 0 WStatus.idle
      WStatus.finished hw h0, ih ts tc ws rc (tr ++ [ChEv.val (0, t)]) hw]
    simp

theorem wp_exit_all (cap n : Nat) :
    ∀ (wfront : List WStatus) (ts : List GoTask) (rc : Bool)
      (tr : List (ChEv (Nat × GoTask))),
      ((List.range' wfront.length n).map WPAct.wexit).foldl (wpStep cap)
          (WPState.mk ts [] true (wfront ++ List.replicate n WStatus.idle)
            rc tr) =
        WPState.mk ts [] true (wfront ++ List.replicate n WStatus.finished)
          rc tr := by
  induction n with
  | zero =>
    intro wfront ts rc tr
    simp [List.range', List.replicate]
  | succ n ih =>
    intro wfront ts rc tr
    rw [show List.range' wfront.length (n + 1) =
      wfront.length :: List.range' (wfront.length + 1) n from rfl,
      List.map_cons, List.foldl_cons]
    have hw : (wfront ++ List.replicate (n + 1) WStatus.idle).getD
        wfront.length WStatus.finished = WStatus.idle := by
      rw [List.replicate_succ]
      exact getD_append_len wfront WStatus.idle WStatus.finished
        (List.replicate n WStatus.idle)
    rw [wpStep_wexit_mk cap wfront.length ts
      (wfront ++ List.replicate (n + 1) WStatus.idle) rc tr hw,
      List.replicate_succ, set_append_len wfront WStatus.idle
      WStatus.finished (List.replicate n WStatus.idle)]
    have hih := ih (wfront ++ [WStatus.finished]) ts rc tr
    rw [show (wfront ++ [WStatus.finished]).length = wfront.length + 1 by
      simp] at hih
    rw [show wfront ++ WStatus.finished :: List.replicate n WStatus.idle =
      (wfront ++ [WStatus.finished]) ++ List.replicate n WStatus.idle by
      simp, hih]
    simp [List.append_assoc, List.replicate_succ]

theorem wp_full_run (tasks : List GoTask) (W : Nat) (hW : 1 ≤ W) :
    wpRun tasks W (wpFullSched tasks W) =
      WPState.mk [] [] true (List.replicate W WStatus.finished) true
        (tasks.map (fun t => ChEv.val (0, t)) ++ [ChEv.closeEv]) := by
  unfold wpRun wpFullSched wpInit
  rw [List.foldl_append, List.foldl_append, List.foldl_append,
    List.foldl_append]
  have h1 : (List.replicate tasks.length WPAct.prodSend).foldl
      (wpStep tasks.length)
      (WPState.mk tasks [] false (List.replicate W WStatus.idle) false []) =
      WPState.mk [] tasks false (List.replicate W WStatus.idle) false [] := by
    simpa using wp_send_all tasks.length tasks [] false
      (List.replicate W WStatus.idle) false [] (by simp)
  rw [h1]
  simp only [List.foldl_cons, List.foldl_nil]
  rw [wpStep_prodClose_mk tasks.length tasks (List.replicate W WStatus.idle)
    false []]
  have hidle : (List.replicate W WStatus.idle).getD 0 WStatus.finished =
      WStatus.idle := getD_replicate_zero W WStatus.idle WStatus.finished hW
  rw [wp_work_all tasks.length tasks [] true (List.replicate W WStatus.idle)
    false [] hidle]
  simp only [List.nil_append]
  have hex : ((List.range' 0 W).map WPAct.wexit).foldl (wpStep tasks.length)
      (WPState.mk [] [] true (List.replicate W WStatus.idle) false
        (tasks.map (fun t => ChEv.val (0, t)))) =
      WPState.mk [] [] true (List.replicate W WStatus.finished) false
        (tasks.map (fun t => ChEv.val (0, t))) := by
    simpa using wp_exit_all tasks.length W [] [] false
      (tasks.map (fun t => ChEv.val (0, t)))
  rw [hex]
  rw [wpStep_resClose_mk tasks.length [] [] true
    (List.replicate W WStatus.finished)
    (tasks.map (fun t => ChEv.val (0, t)))
    (all_replicate_of W WStatus.finished isFinished rfl)]

/-- C2: for every task list, every worker count W >= 1 and every schedule
of the producer, worker and closer goroutines: once the result queue is
closed, the tasks carried by the emitted Results are a permutation of the
submitted tasks — exactly N Results, no task lost, no task processed by
more than one worker — the close event is unique and last; before closure
no close event exists; and the explicit fair schedule reaches closure with
exactly one Result per task. -/
theorem workerpool_conserves_and_closes (tasks0 : List GoTask) (W : Nat)
    (hW : 1 ≤ W) :
    (∀ sched : List WPAct,
      ((wpRun tasks0 W sched).resClosed = true →
        ((valsOf (wpRun tasks0 W sched).resTrace).map Prod.snd).Perm tasks0 ∧
        (valsOf (wpRun tasks0 W sched).resTrace).length = tasks0.length ∧
        closeCount (wpRun tasks0 W sched).resTrace = 1 ∧
        (wpRun tasks0 W sched).resTrace.getLast? = some ChEv.closeEv) ∧
      ((wpRun tasks0 W sched).resClosed = false →
        closeCount (wpRun tasks0 W sched).resTrace = 0)) ∧
    wpRun tasks0 W (wpFullSched tasks0 W) =
      WPState.mk [] [] true (List.replicate W WStatus.finished) true
        (tasks0.map (fun t => ChEv.val (0, t)) ++ [ChEv.closeEv]) := by
  refine ⟨fun sched => ?_, wp_full_run tasks0 W hW⟩
  simp only [wpRun]
  obtain ⟨h1, h2, h3, h4, h5, h6, h7, h8⟩ := wpRun_inv_aux tasks0.length
    tasks0 W sched (wpInit tasks0 W) (wpInit_inv tasks0 W)
  constructor
  · intro hc
    have hall := h4 hc
    have hne : (sched.foldl (wpStep tasks0.length)
        (wpInit tasks0 W)).workers ≠ [] := by
      intro hnil
      rw [hnil] at h1
      simp at h1
      omega
    have htc := h6 (any_of_all_ne_nil _ isFinished hne hall)
    have hts := h5 htc
    have hbuf := h7 hall hne
    have hbusy := busyTasks_of_all_finished _ hall
    rw [hts, hbuf, hbusy] at h2
    simp only [List.append_nil] at h2
    refine ⟨h2, ?_, by rw [h3, if_pos hc], h8 hc⟩
    have hlen := h2.length_eq
    simpa using hlen
  · intro hc
    rw [h3, if_neg (by rw [hc]; exact Bool.false_ne_true)]

theorem workerpool_conserves_and_closes_witness :
    ((valsOf (wpRun demoTasks 2 (wpFullSched demoTasks 2)).resTrace).map
      Prod.snd).Perm demoTasks ∧
    closeCount (wpRun demoTasks 2 (wpFullSched demoTasks 2)).resTrace = 1 := by
  have h := workerpool_conserves_and_closes demoTasks 2 (by decide)
  have hc : (wpRun demoTasks 2 (wpFullSched demoTasks 2)).resClosed = true := by
    decide
  have hm := (h.1 (wpFullSched demoTasks 2)).1 hc
  exact ⟨hm.1, hm.2.2.1⟩
